import Mathlib

/-!
# The `servers` command of the asynq CLI

A shallow embedding of `tools/asynq/cmd/servers.go` and of `printTable` from
`tools/asynq/cmd/root.go`, with the properties of the discovery, sort, format and
render pipeline.

Conventions of the embedding.

* A Go `string` is a finite sequence of bytes: `GoString := List (Fin 256)`.
  `len` is `List.length`, `+` is `++`, and `<` is byte-wise lexicographic
  comparison (`strLess`).
* A Go `int` is an `Int`; where the standard library relies on 64-bit wrap-around
  (package `time`) the wrap-around is written out (`wrap64`, `toUint64`).
* The Go standard library is not part of the repository.  The routines the command
  calls (`fmt.Fprintf`, `strings.Repeat`, `time.Since`, `Duration.Round`,
  `Duration.String`) are given as executable models below.  `sort.Slice` is the
  library's insertion sort on short slices; on longer slices it is a routine that
  the embedding takes as an argument and knows by the documented contract only
  (`SortContract`).
* The clock is an argument: `clock k` is the instant that the `k`-th call of
  `time.Now` returns during the run.  The command reads the clock once for every
  data row.
* An `io.Writer` is modelled by the sequence of `Write` calls it receives; one
  `fmt.Fprintf` call is one write.  The column alignment that `text/tabwriter`
  performs on `Flush` is outside the embedding: the table is described by the
  writes that reach the tabwriter.
-/

namespace Asynq

/-! ## Strings -/

/-- A Go string: a sequence of bytes. -/
abbrev GoString := List (Fin 256)

/-- A string literal of the source, as bytes (all literals of the source are ASCII). -/
def str (s : String) : GoString := s.toList.map (fun c => Fin.ofNat c.toNat)

/-- The tab byte, `'\t'`. -/
def tab : Fin 256 := 9

/-- The line break byte, `'\n'`. -/
def nl : Fin 256 := 10

/-- Go's `<` on strings: lexicographic comparison of the bytes, a proper prefix
being smaller. -/
def strLess : GoString → GoString → Bool
  | [], [] => false
  | [], _ :: _ => true
  | _ :: _, [] => false
  | a :: as, b :: bs =>
    if a < b then true else if b < a then false else strLess as bs

/-- The function `strings.Repeat(s, count)` for a count that is a length. -/
def stringsRepeat (s : GoString) (count : Nat) : GoString :=
  (List.replicate count s).flatten

/-! ## `sort.Slice`

`sort.Slice(x, less)` belongs to the Go standard library; its documentation says
that the sort is not guaranteed to be stable.  On a slice of at most 6 elements
every release of the library runs its insertion sort and nothing else (the
pattern-defeating quicksort of the current releases does so up to 12 elements, the
quicksort of the older releases up to 12 elements after a pass that compares the
elements 6 places apart):

```go
for i := a + 1; i < b; i++ {
    for j := i; j > a && less(data[j], data[j-1]); j-- {
        data.Swap(j, j-1)
    }
}
```

On longer slices the routine differs between releases and may order tied elements
in any way.  It is an argument `long` of the model, and the statements assume of it
what the library guarantees: `SortContract`.
-/

/-- The inner loop of the insertion sort: `x` is swapped leftwards past every
predecessor `y` with `less x y`.  The second argument is the prefix
`data[a..i-1]` listed from right to left, and so is the result. -/
def sinkLeft {α : Type} (less : α → α → Bool) (x : α) : List α → List α
  | [] => [x]
  | y :: ys => if less x y then y :: sinkLeft less x ys else x :: y :: ys

/-- The outer loop of the insertion sort: `done` is the processed prefix (right to
left), `rest` the elements still to be inserted. -/
def insertionSortLoop {α : Type} (less : α → α → Bool) : List α → List α → List α
  | done, [] => done.reverse
  | done, x :: rest => insertionSortLoop less (sinkLeft less x done) rest

/-- The library's insertion sort: the contents of the slice after the two loops. -/
def insertionSortFunc {α : Type} (less : α → α → Bool) (x : List α) : List α :=
  insertionSortLoop less [] x

/-- The type of the routine that `sort.Slice` runs on slices of more than 6
elements. -/
abbrev LongSort := (α : Type) → (α → α → Bool) → List α → List α

/-- What the library guarantees of its sorting routine: the slice is rearranged
(elements are only swapped), and when `less` is a strict weak ordering no element
is smaller than one before it.  Nothing is said of the order of tied elements. -/
def SortContract (long : LongSort) : Prop :=
  ∀ (α : Type) (less : α → α → Bool) (x : List α),
    (long α less x).Perm x ∧
    ((∀ a b, less a b = true → less b a = false) →
      (∀ a b c, less a b = false → less b c = false → less a c = false) →
      (long α less x).Pairwise (fun a b => less b a = false))

/-- Model of `sort.Slice(x, less)`: the contents of `x` after the call. -/
def sortSlice {α : Type} (long : LongSort) (less : α → α → Bool) (x : List α) : List α :=
  if x.length ≤ 6 then insertionSortFunc less x else long α less x

/-- A routine for long slices that meets the contract: the insertion sort again. -/
def insertionLong : LongSort := fun _ less x => insertionSortFunc less x

/-- Another routine for long slices that meets the contract; it leaves tied
elements in the reverse of their order in the slice. -/
def tieReversingLong : LongSort := fun _ less x => insertionSortFunc less x.reverse

/-! ## Decimal rendering of integers -/

/-- The ASCII digit of `d % 10`. -/
def digitByte (d : Nat) : Fin 256 := Fin.ofNat (48 + d % 10)

/-- The digit loop `for v > 0 { w--; buf[w] = byte(v%10) + '0'; v /= 10 }`,
writing in front of `acc`.  The loop runs at most `v` times, so `fuel = v`
suffices. -/
def digitLoop : Nat → Nat → GoString → GoString
  | 0, _, acc => acc
  | fuel + 1, v, acc =>
    if v = 0 then acc else digitLoop fuel (v / 10) (digitByte v :: acc)

/-- Decimal digits of a natural number in front of `acc` (`fmtInt` of package
`time`; `"0"` for zero). -/
def fmtNatInto (v : Nat) (acc : GoString) : GoString :=
  if v = 0 then digitByte 0 :: acc else digitLoop v v acc

/-- Decimal rendering of a natural number. -/
def fmtNat (v : Nat) : GoString := fmtNatInto v []

/-- Decimal rendering of an `int` (the verb `%d`, and `%v` on an `int`). -/
def fmtInt (i : Int) : GoString :=
  if i < 0 then str "-" ++ fmtNat i.natAbs else fmtNat i.natAbs

/-! ## Package `time`

A `time.Time` is modelled by the instant it denotes, in nanoseconds from a fixed
origin; a `time.Duration` is an `int64` count of nanoseconds. -/

/-- The constant `time.Second`, in nanoseconds. -/
def second : Int := 1000000000

/-- The largest `Duration`, `1<<63 - 1`. -/
def maxDuration : Int := 2 ^ 63 - 1

/-- The smallest `Duration`, `-1 << 63`. -/
def minDuration : Int := -(2 ^ 63)

/-- The value of an `int64` expression after two's complement wrap-around. -/
def wrap64 (x : Int) : Int := (x + 2 ^ 63) % 2 ^ 64 - 2 ^ 63

/-- The conversion `uint64(x)`. -/
def toUint64 (x : Int) : Nat := (x % 2 ^ 64).toNat

/-- The method `t.Sub(u)`: the difference `t - u`, or the largest (smallest)
duration when the difference does not fit a `Duration`. -/
def timeSub (t u : Int) : Int :=
  let d := t - u
  if minDuration ≤ d ∧ d ≤ maxDuration then d
  else if t < u then minDuration
  else maxDuration

/-- The function `time.Since(t)`, which is `time.Now().Sub(t)`; the current
instant is the explicit argument `now`. -/
def timeSince (now t : Int) : Int := timeSub now t

/-- The helper `lessThanHalf(x, y)`: `uint64(x)+uint64(x) < uint64(y)`. -/
def lessThanHalf (x y : Int) : Bool :=
  decide ((toUint64 x + toUint64 x) % 2 ^ 64 < toUint64 y)

/-- The method `d.Round(m)`: `d` rounded to the nearest multiple of `m`, halfway
values away from zero, and the largest (smallest) duration on overflow. -/
def durationRound (d m : Int) : Int :=
  if m ≤ 0 then d
  else
    let r := d.tmod m
    if d < 0 then
      let r := -r
      if lessThanHalf r m then wrap64 (d + r)
      else
        let d1 := wrap64 (d - m + r)
        if d1 < d then d1 else minDuration
    else
      if lessThanHalf r m then wrap64 (d - r)
      else
        let d1 := wrap64 (d + m - r)
        if d1 > d then d1 else maxDuration

/-- The loop of `fmtFrac`: `prec` digits of `v` are consumed from the right;
trailing zeros are not written.  Returns the buffer, the remaining value and the
flag `print`. -/
def fmtFracLoop : Nat → Nat → Bool → GoString → GoString × Nat × Bool
  | 0, v, print, buf => (buf, v, print)
  | i + 1, v, print, buf =>
    let digit := v % 10
    let print := print || decide (digit ≠ 0)
    let buf := if print then digitByte digit :: buf else buf
    fmtFracLoop i (v / 10) print buf

/-- The function `fmtFrac(buf, v, prec)` of package `time`: the fraction of
`v / 10^prec` in front of `buf`, with the decimal point, nothing when the fraction
is zero.  Returns the buffer and `v / 10^prec`. -/
def fmtFrac (buf : GoString) (v : Nat) (prec : Nat) : GoString × Nat :=
  let res := fmtFracLoop prec v false buf
  (if res.2.2 then str "." ++ res.1 else res.1, res.2.1)

/-- The method `d.String()` (`Duration.format`): for instance `72h3m0.5s`.
Durations below one second use a smaller unit, zero is `0s`. -/
def durationString (d : Int) : GoString :=
  let neg := decide (d < 0)
  let u := if neg then (2 ^ 64 - toUint64 d) % 2 ^ 64 else toUint64 d
  if u < 1000000000 then
    if u = 0 then str "0s"
    else
      let body :=
        if u < 1000 then
          let f := fmtFrac (str "ns") u 0
          fmtNatInto f.2 f.1
        else if u < 1000000 then
          let f := fmtFrac ([0xC2, 0xB5] ++ str "s") u 3
          fmtNatInto f.2 f.1
        else
          let f := fmtFrac (str "ms") u 6
          fmtNatInto f.2 f.1
      if neg then str "-" ++ body else body
  else
    let f := fmtFrac (str "s") u 9
    let buf := fmtNatInto (f.2 % 60) f.1
    let u := f.2 / 60
    let body :=
      if u > 0 then
        let buf := fmtNatInto (u % 60) (str "m" ++ buf)
        let u := u / 60
        if u > 0 then fmtNatInto u (str "h" ++ buf) else buf
      else buf
    if neg then str "-" ++ body else body

/-! ## Package `fmt`

The formatted-print routines are modelled for the directives the command uses: the
verbs `%v`, `%s` and `%d` without flags, applied to strings, ints and durations.
A missing operand, surplus operands, a verb that does not fit its operand and a
format ending in `%` give the diagnostics of the library.  The other directives of
the library (`%x`, `%q`, flags, widths) do not occur in the command and are not
modelled: the model treats them as unknown verbs. -/

/-- An operand of a formatted print. -/
inductive Arg where
  | str (s : GoString)
  | int (i : Int)
  | dur (d : Int)

/-- The percent byte, `'%'`. -/
def percent : Fin 256 := 37

/-- The Go type name of an operand. -/
def Arg.typeName : Arg → GoString
  | .str _ => Asynq.str "string"
  | .int _ => Asynq.str "int"
  | .dur _ => Asynq.str "time.Duration"

/-- The operand under the verb `%v`. -/
def Arg.value : Arg → GoString
  | .str s => s
  | .int i => fmtInt i
  | .dur d => durationString d

/-- The diagnostic for a verb that does not fit its operand, `%!verb(type=value)`. -/
def Arg.badVerb (a : Arg) (verb : Fin 256) : GoString :=
  Asynq.str "%!" ++ [verb] ++ Asynq.str "(" ++ a.typeName ++ Asynq.str "=" ++ a.value
    ++ Asynq.str ")"

/-- The operand under the given verb. -/
def Arg.render (a : Arg) (verb : Fin 256) : GoString :=
  if verb = 118 then a.value
  else if verb = 115 then
    match a with
    | .str s => s
    | .int _ => a.badVerb verb
    | .dur d => durationString d
  else if verb = 100 then
    match a with
    | .str _ => a.badVerb verb
    | .int i => fmtInt i
    | .dur d => fmtInt d
  else a.badVerb verb

/-- The diagnostic for operands left over at the end of the format,
`%!(EXTRA type=value, ...)`; nothing when none is left. -/
def extraArgs : List Arg → GoString
  | [] => []
  | a :: as =>
    str "%!(EXTRA " ++
      (str ", ").intercalate ((a :: as).map (fun b => b.typeName ++ str "=" ++ b.value))
      ++ str ")"

/-- The function `fmt.Sprintf(format, args...)`; `fmt.Fprintf(w, format, args...)`
writes this string to `w` in one write. -/
def sprintf : GoString → List Arg → GoString
  | [], args => extraArgs args
  | c :: rest, args =>
    if c = percent then
      match rest with
      | [] => str "%!(NOVERB)" ++ extraArgs args
      | verb :: rest' =>
        if verb = percent then percent :: sprintf rest' args
        else
          match args with
          | [] => str "%!" ++ [verb] ++ str "(MISSING)" ++ sprintf rest' []
          | a :: as => a.render verb ++ sprintf rest' as
    else c :: sprintf rest args

/-! ## `tools/asynq/cmd/root.go` -/

/-- The function `printTable(cols, printRows)`: the writes that reach the
tabwriter, in order.  `printRows` receives the row template and returns the writes
it makes. -/
def printTable (cols : List GoString) (printRows : GoString → List GoString) :
    List GoString :=
  let format := stringsRepeat (str "%v\t") cols.length ++ str "\n"
  let headers := cols.map Arg.str
  let seps := cols.map (fun name => Arg.str (stringsRepeat (str "-") name.length))
  [sprintf format headers, sprintf format seps] ++ printRows format

/-! ## `tools/asynq/cmd/servers.go` -/

/-- Modelled from the spec: the record type `base.ServerInfo` is declared in
`internal/base`, outside the given sources; the fields are those the command reads
(section 3 of the specification).  `Queues` is a Go map, given by its entries in the
order in which the `range` loop of `formatQueues` enumerates them; `Started` is an
instant in nanoseconds. -/
structure ServerInfo where
  Host : GoString
  PID : Int
  Status : GoString
  ActiveWorkerCount : Int
  Concurrency : Int
  Queues : List (GoString × Int)
  Started : Int
  deriving DecidableEq

/-- The comparator given to `sort.Slice` in `servers`. -/
def serverLess (x y : ServerInfo) : Bool :=
  if x.Host ≠ y.Host then strLess x.Host y.Host
  else decide (x.PID < y.PID)

/-- The function `timeAgo(since)`, with the current instant as an argument. -/
def timeAgo (now since : Int) : GoString :=
  let d := durationRound (timeSince now since) second
  sprintf (str "%v ago") [Arg.dur d]

/-- The local type `queue` of `formatQueues`. -/
structure queue where
  name : GoString
  priority : Int
  deriving DecidableEq

/-- The comparator given to `sort.Slice` in `formatQueues`. -/
def queueLess (x y : queue) : Bool :=
  if x.priority ≠ y.priority then decide (x.priority > y.priority)
  else strLess x.name y.name

/-- The rendering loop of `formatQueues`: `l` counts the queues not yet written,
`b` is the content of the builder. -/
def formatQueuesLoop : List queue → Int → GoString → GoString
  | [], _, b => b
  | q :: qs, l, b =>
    let b := b ++ sprintf (str "%s:%d") [Arg.str q.name, Arg.int q.priority]
    let l := l - 1
    let b := if l > 0 then b ++ str " " else b
    formatQueuesLoop qs l b

/-- The function `formatQueues(qmap)`; the argument lists the entries of the map
in the order of the `range` loop. -/
def formatQueues (long : LongSort) (qmap : List (GoString × Int)) : GoString :=
  let queues := qmap.map (fun e => queue.mk e.1 e.2)
  let queues := sortSlice long queueLess queues
  formatQueuesLoop queues queues.length []

/-- The column headers of the `servers` table. -/
def cols : List GoString :=
  [str "Host", str "PID", str "State", str "Active Workers", str "Queues", str "Started"]

/-- The loop of the closure `printRows`: one write per record.  `k` counts the
calls of `time.Now` made so far; the row of a record is rendered at the instant
`clock k` of the call that `timeAgo` makes for it. -/
def printRowsLoop (long : LongSort) (clock : Nat → Int) (tmpl : GoString) :
    Nat → List ServerInfo → List GoString
  | _, [] => []
  | k, info :: rest =>
    sprintf tmpl
      [Arg.str info.Host, Arg.int info.PID, Arg.str info.Status,
       Arg.str (sprintf (str "%d/%d") [Arg.int info.ActiveWorkerCount, Arg.int info.Concurrency]),
       Arg.str (formatQueues long info.Queues), Arg.str (timeAgo (clock k) info.Started)]
      :: printRowsLoop long clock tmpl (k + 1) rest

/-- The closure `printRows` of `servers`, over the sorted records. -/
def printRows (long : LongSort) (servers : List ServerInfo) (clock : Nat → Int)
    (tmpl : GoString) : List GoString :=
  printRowsLoop long clock tmpl 0 servers

/-- What one run of the command produces: the bytes printed directly on standard
output, the writes made to the tabwriter of `printTable`, and the exit status. -/
structure Outcome where
  stdout : GoString
  table : List GoString
  exitCode : Nat
  deriving DecidableEq

/-- The function `servers`: `long` is the library's sorting routine for long
slices, `fetched` the result of `r.ListServers()` (the records, or the message of
the error), `clock` the readings of the clock. -/
def servers (long : LongSort) (fetched : Except GoString (List ServerInfo))
    (clock : Nat → Int) : Outcome :=
  match fetched with
  | .error err => ⟨err ++ str "\n", [], 1⟩
  | .ok servers =>
    if servers.length = 0 then ⟨str "No running servers" ++ str "\n", [], 0⟩
    else
      let servers := sortSlice long serverLess servers
      ⟨[], printTable cols (printRows long servers clock), 0⟩

/-! ## Example data -/

/-- A server on host `a`. -/
def serverOnA : ServerInfo :=
  ⟨str "a", 4242, str "running", 1, 10, [(str "default", 1)], 0⟩

/-- A server on host `b` with the pid of `serverOnA`. -/
def serverOnB : ServerInfo :=
  ⟨str "b", 4242, str "running", 2, 10, [(str "default", 1)], 0⟩

/-- A second record with the host and pid of `serverOnA`, in another state. -/
def serverOnAQuiet : ServerInfo :=
  ⟨str "a", 4242, str "quiet", 1, 10, [(str "default", 1)], 0⟩

/-- The queue map of the specification's example, in one enumeration order. -/
def exampleQueues : List (GoString × Int) :=
  [(str "default", 1), (str "critical", 6), (str "low", 1)]

/-- Thirteen records on one host with the pids 5, 12, 11, ..., 1; the first and the
ninth share the pid 5 and differ in their state. -/
def tiedSnapshot : List ServerInfo :=
  ⟨str "a", 5, str "running", 1, 10, [(str "default", 1)], 0⟩ ::
    ([12, 11, 10, 9, 8, 7, 6].map
      (fun pid => (⟨str "a", pid, str "running", 1, 10, [(str "default", 1)], 0⟩ : ServerInfo)))
    ++ ⟨str "a", 5, str "quiet", 1, 10, [(str "default", 1)], 0⟩ ::
    ([4, 3, 2, 1].map
      (fun pid => (⟨str "a", pid, str "running", 1, 10, [(str "default", 1)], 0⟩ : ServerInfo)))

/-- A clock that reads five seconds at the first call of `time.Now` and advances by
one second from call to call. -/
def exampleClock : Nat → Int := fun k => 5000000000 + 1000000000 * (k : Int)

/-- A server with a queue whose name contains a tab. -/
def serverTabQueue : ServerInfo :=
  ⟨str "a", 4242, str "running", 1, 10, [(str "low\tprio", 1)], 0⟩

/-! ## Vocabulary of the statements -/

/-- The dash byte, `'-'`. -/
def dash : Fin 256 := 45

/-- A table line with the given cells: every cell followed by a tab, then a line
break. -/
def tabLine (cells : List GoString) : GoString :=
  (cells.map (fun c => c ++ [tab])).flatten ++ [nl]

/-- The number that a string of ASCII digits denotes in base ten. -/
def decimalValue (s : GoString) : Nat :=
  s.foldl (fun n b => 10 * n + (b.val - 48)) 0

/-- The string holds neither a tab nor a line break. -/
def noBreak (s : GoString) : Prop := ∀ b ∈ s, b ≠ tab ∧ b ≠ nl

/-- Go's duration notation for a whole number of seconds: hours, minutes and
seconds, the leading units that are zero left out (`5s`, `1m0s`, `3h12m5s`). -/
def hmsText (secs : Nat) : GoString :=
  if secs < 60 then fmtNat secs ++ str "s"
  else if secs < 3600 then fmtNat (secs / 60) ++ str "m" ++ fmtNat (secs % 60) ++ str "s"
  else
    fmtNat (secs / 3600) ++ str "h" ++ fmtNat (secs / 60 % 60) ++ str "m" ++
      fmtNat (secs % 60) ++ str "s"

/-- A non-negative count of nanoseconds rounded to the nearest whole second, in
seconds. -/
def nearestSecond (elapsed : Int) : Nat := ((elapsed + 500000000) / 1000000000).toNat

instance (s : GoString) : Decidable (noBreak s) :=
  inferInstanceAs (Decidable (∀ b ∈ s, b ≠ tab ∧ b ≠ nl))

set_option maxRecDepth 100000

/-! ## Properties of the string order -/

theorem strLess_irrefl (a : GoString) : strLess a a = false := by
  induction a with
  | nil => rfl
  | cons x xs ih => simp [strLess, ih]

theorem strLess_asymm (a b : GoString) (h : strLess a b = true) : strLess b a = false := by
  induction a generalizing b with
  | nil => cases b <;> simp_all [strLess]
  | cons x xs ih =>
    cases b with
    | nil => simp_all [strLess]
    | cons y ys =>
      simp only [strLess] at h ⊢
      split_ifs at h ⊢ <;> simp_all
      · exact absurd ‹x < y› (lt_asymm ‹y < x›)

theorem strLess_total (a b : GoString) (h1 : strLess a b = false) (h2 : strLess b a = false) :
    a = b := by
  induction a generalizing b with
  | nil => cases b <;> simp_all [strLess]
  | cons x xs ih =>
    cases b with
    | nil => simp_all [strLess]
    | cons y ys =>
      simp only [strLess] at h1 h2
      split_ifs at h1 h2
      have hxy : x = y := le_antisymm (not_lt.mp ‹¬ y < x›) (not_lt.mp ‹¬ x < y›)
      rw [hxy, ih ys h1 h2]

theorem strLess_trans (a b c : GoString) (h1 : strLess a b = true) (h2 : strLess b c = true) :
    strLess a c = true := by
  induction a generalizing b c with
  | nil => cases b <;> cases c <;> simp_all [strLess]
  | cons x xs ih =>
    cases b with
    | nil => simp_all [strLess]
    | cons y ys =>
      cases c with
      | nil => simp_all [strLess]
      | cons z zs =>
        simp only [strLess] at h1 h2 ⊢
        split_ifs at h1 h2 ⊢ <;> first
          | rfl
          | exact ih ys zs h1 h2
          | (exfalso; simp only [Fin.lt_def, not_lt] at *; omega)

theorem strLess_negtrans (a b c : GoString) (h1 : strLess a b = false)
    (h2 : strLess b c = false) : strLess a c = false := by
  by_contra h
  have hac : strLess a c = true := by simpa using h
  by_cases hab : a = b
  · subst hab; simp [hac] at h2
  · have hba : strLess b a = true := by
      by_contra hn
      exact hab (strLess_total a b h1 (by simpa using hn))
    have := strLess_trans b a c hba hac
    simp [this] at h2

/-! ## Properties of the sort model -/

section SortModel

variable {α : Type} (less : α → α → Bool)

theorem sinkLeft_perm (x : α) (l : List α) : (sinkLeft less x l).Perm (x :: l) := by
  induction l with
  | nil => simp [sinkLeft]
  | cons y ys ih =>
    simp only [sinkLeft]
    split_ifs
    · exact (List.Perm.cons y ih).trans (List.Perm.swap x y ys)
    · exact List.Perm.refl _

theorem insertionSortLoop_perm (done rest : List α) :
    (insertionSortLoop less done rest).Perm (done.reverse ++ rest) := by
  induction rest generalizing done with
  | nil => simp [insertionSortLoop]
  | cons x rest ih =>
    simp only [insertionSortLoop]
    refine (ih (sinkLeft less x done)).trans ?_
    have h1 : (sinkLeft less x done).reverse.Perm (x :: done.reverse) :=
      (List.reverse_perm _).trans
        ((sinkLeft_perm less x done).trans (List.Perm.cons x (List.reverse_perm done).symm))
    have h2 : (x :: done.reverse).Perm (done.reverse ++ [x]) := by
      simpa using (List.perm_append_comm : ([x] ++ done.reverse).Perm (done.reverse ++ [x]))
    have h3 := (h1.trans h2).append_right rest
    simpa using h3

theorem insertionSortFunc_perm (l : List α) : (insertionSortFunc less l).Perm l := by
  simpa [insertionSortFunc] using insertionSortLoop_perm less [] l

theorem sinkLeft_sorted
    (hasym : ∀ a b, less a b = true → less b a = false)
    (hneg : ∀ a b c, less a b = false → less b c = false → less a c = false)
    (x : α) (l : List α) (hl : l.Pairwise (fun a b => less a b = false)) :
    (sinkLeft less x l).Pairwise (fun a b => less a b = false) := by
  induction l with
  | nil => simp [sinkLeft]
  | cons y ys ih =>
    rw [List.pairwise_cons] at hl
    simp only [sinkLeft]
    split_ifs with hxy
    · rw [List.pairwise_cons]
      refine ⟨?_, ih hl.2⟩
      intro z hz
      rcases List.mem_cons.mp ((sinkLeft_perm less x ys).mem_iff.mp hz) with h | h
      · rw [h]; exact hasym _ _ hxy
      · exact hl.1 z h
    · have hxy' : less x y = false := by simpa using hxy
      rw [List.pairwise_cons]
      refine ⟨?_, List.pairwise_cons.mpr hl⟩
      intro z hz
      rcases List.mem_cons.mp hz with rfl | hz
      · exact hxy'
      · exact hneg _ _ _ hxy' (hl.1 z hz)

theorem insertionSortLoop_sorted
    (hasym : ∀ a b, less a b = true → less b a = false)
    (hneg : ∀ a b c, less a b = false → less b c = false → less a c = false)
    (done rest : List α) (hd : done.Pairwise (fun a b => less a b = false)) :
    (insertionSortLoop less done rest).Pairwise (fun a b => less b a = false) := by
  induction rest generalizing done with
  | nil => simpa [insertionSortLoop, List.pairwise_reverse] using hd
  | cons x rest ih =>
    simp only [insertionSortLoop]
    exact ih _ (sinkLeft_sorted less hasym hneg x done hd)

theorem insertionSortFunc_sorted
    (hasym : ∀ a b, less a b = true → less b a = false)
    (hneg : ∀ a b c, less a b = false → less b c = false → less a c = false)
    (l : List α) : (insertionSortFunc less l).Pairwise (fun a b => less b a = false) :=
  insertionSortLoop_sorted less hasym hneg [] l List.Pairwise.nil

theorem insertionSortLoop_of_sorted (done rest : List α)
    (h : (done.reverse ++ rest).Pairwise (fun a b => less b a = false)) :
    insertionSortLoop less done rest = done.reverse ++ rest := by
  induction rest generalizing done with
  | nil => simp [insertionSortLoop]
  | cons x rest ih =>
    have hs : sinkLeft less x done = x :: done := by
      cases done with
      | nil => rfl
      | cons y ys =>
        have hxy : less x y = false := by
          rw [List.pairwise_append] at h
          exact h.2.2 y (by simp) x (by simp)
        simp [sinkLeft, hxy]
    simp only [insertionSortLoop, hs]
    rw [ih (x :: done) (by simpa using h)]
    simp

theorem insertionSortFunc_of_sorted (l : List α)
    (h : l.Pairwise (fun a b => less b a = false)) : insertionSortFunc less l = l := by
  simpa [insertionSortFunc] using insertionSortLoop_of_sorted less [] l (by simpa using h)

theorem sorted_perm_unique (l₁ l₂ : List α) (hp : l₁.Perm l₂)
    (h₁ : l₁.Pairwise (fun a b => less b a = false))
    (h₂ : l₂.Pairwise (fun a b => less b a = false))
    (htie : ∀ a ∈ l₁, ∀ b ∈ l₁, less a b = false → less b a = false → a = b) :
    l₁ = l₂ := by
  induction l₁ generalizing l₂ with
  | nil => exact (List.perm_nil.mp hp.symm).symm ▸ rfl
  | cons a t₁ ih =>
    cases l₂ with
    | nil => exact absurd hp.length_eq (by simp)
    | cons b t₂ =>
      have hab : a = b := by
        have ha : a ∈ b :: t₂ := hp.mem_iff.mp (by simp)
        have hb : b ∈ a :: t₁ := hp.mem_iff.mpr (by simp)
        rcases List.mem_cons.mp ha with h | ha'
        · exact h
        · rcases List.mem_cons.mp hb with h | hb'
          · exact h.symm
          · have r1 : less a b = false := (List.pairwise_cons.mp h₂).1 a ha'
            have r2 : less b a = false := (List.pairwise_cons.mp h₁).1 b hb'
            exact htie a (by simp) b hb r1 r2
      subst hab
      have ht := ih t₂ (List.Perm.cons_inv hp) (List.pairwise_cons.mp h₁).2
        (List.pairwise_cons.mp h₂).2
        (fun x hx y hy => htie x (List.mem_cons_of_mem _ hx) y (List.mem_cons_of_mem _ hy))
      rw [ht]

theorem sortSlice_short (long : LongSort) (l : List α) (h : l.length ≤ 6) :
    sortSlice long less l = insertionSortFunc less l := by
  simp [sortSlice, h]

theorem sortSlice_perm (long : LongSort) (hlib : SortContract long) (l : List α) :
    (sortSlice long less l).Perm l := by
  unfold sortSlice
  split_ifs
  · exact insertionSortFunc_perm less l
  · exact (hlib α less l).1

theorem sortSlice_sorted (long : LongSort) (hlib : SortContract long)
    (hasym : ∀ a b, less a b = true → less b a = false)
    (hneg : ∀ a b c, less a b = false → less b c = false → less a c = false)
    (l : List α) : (sortSlice long less l).Pairwise (fun a b => less b a = false) := by
  unfold sortSlice
  split_ifs
  · exact insertionSortFunc_sorted less hasym hneg l
  · exact (hlib α less l).2 hasym hneg

theorem sortSlice_unique (long : LongSort) (hlib : SortContract long)
    (hasym : ∀ a b, less a b = true → less b a = false)
    (hneg : ∀ a b c, less a b = false → less b c = false → less a c = false)
    (l out : List α) (hp : out.Perm l) (hsorted : out.Pairwise (fun a b => less b a = false))
    (htie : ∀ a ∈ l, ∀ b ∈ l, less a b = false → less b a = false → a = b) :
    out = sortSlice long less l :=
  sorted_perm_unique less out (sortSlice long less l)
    (hp.trans (sortSlice_perm less long hlib l).symm) hsorted
    (sortSlice_sorted less long hlib hasym hneg l)
    (fun a ha b hb => htie a (hp.mem_iff.mp ha) b (hp.mem_iff.mp hb))

end SortModel

theorem insertionLong_contract : SortContract insertionLong := by
  intro α less x
  exact ⟨insertionSortFunc_perm less x, fun hasym hneg => insertionSortFunc_sorted less hasym hneg x⟩

theorem tieReversingLong_contract : SortContract tieReversingLong := by
  intro α less x
  exact ⟨(insertionSortFunc_perm less x.reverse).trans (List.reverse_perm x),
    fun hasym hneg => insertionSortFunc_sorted less hasym hneg x.reverse⟩

/-! ## Properties of the two comparators -/

theorem serverLess_eq (x y : ServerInfo) :
    serverLess x y = if x.Host = y.Host then decide (x.PID < y.PID) else strLess x.Host y.Host := by
  unfold serverLess
  by_cases h : x.Host = y.Host <;> simp [h]

theorem serverLess_asymm (a b : ServerInfo) (h : serverLess a b = true) :
    serverLess b a = false := by
  rw [serverLess_eq] at h ⊢
  by_cases hab : a.Host = b.Host
  · simp only [hab, if_true, decide_eq_true_eq, decide_eq_false_iff_not] at h ⊢
    omega
  · have hba : ¬ b.Host = a.Host := fun e => hab e.symm
    simp only [hab, hba, if_false] at h ⊢
    exact strLess_asymm _ _ h

theorem serverLess_negtrans (a b c : ServerInfo) (h1 : serverLess a b = false)
    (h2 : serverLess b c = false) : serverLess a c = false := by
  rw [serverLess_eq] at h1 h2 ⊢
  by_cases hab : a.Host = b.Host
  · by_cases hbc : b.Host = c.Host
    · have hac : a.Host = c.Host := hab.trans hbc
      simp only [hab, hbc, hac, if_true, decide_eq_false_iff_not] at h1 h2 ⊢
      omega
    · have hac : ¬ a.Host = c.Host := fun e => hbc (hab.symm.trans e)
      simp only [hbc, hac, if_false] at h2 ⊢
      rw [hab]; exact h2
  · by_cases hbc : b.Host = c.Host
    · have hac : ¬ a.Host = c.Host := fun e => hab (e.trans hbc.symm)
      simp only [hab, hac, if_false] at h1 ⊢
      rw [← hbc]; exact h1
    · simp only [hab, hbc, if_false] at h1 h2
      have h3 := strLess_negtrans _ _ _ h1 h2
      by_cases hac : a.Host = c.Host
      · exfalso
        rw [← hac] at h2
        exact hab (strLess_total _ _ h1 h2)
      · simp only [hac, if_false]; exact h3

theorem serverLess_tie (a b : ServerInfo) (h1 : serverLess a b = false)
    (h2 : serverLess b a = false) : a.Host = b.Host ∧ a.PID = b.PID := by
  rw [serverLess_eq] at h1 h2
  by_cases hab : a.Host = b.Host
  · simp only [hab, if_true, decide_eq_false_iff_not] at h1 h2
    exact ⟨hab, by omega⟩
  · have hba : ¬ b.Host = a.Host := fun e => hab e.symm
    simp only [hab, hba, if_false] at h1 h2
    exact absurd (strLess_total _ _ h1 h2) hab

theorem serverLess_ordered (x y : ServerInfo) (h : serverLess y x = false) :
    strLess x.Host y.Host = true ∨ (x.Host = y.Host ∧ x.PID ≤ y.PID) := by
  rw [serverLess_eq] at h
  by_cases hyx : y.Host = x.Host
  · simp only [hyx, if_true, decide_eq_false_iff_not] at h
    exact Or.inr ⟨hyx.symm, by omega⟩
  · simp only [hyx, if_false] at h
    left
    by_contra hn
    exact hyx (strLess_total _ _ h (by simpa using hn))

theorem queueLess_eq (x y : queue) :
    queueLess x y =
      if x.priority = y.priority then strLess x.name y.name
      else decide (x.priority > y.priority) := by
  unfold queueLess
  by_cases h : x.priority = y.priority <;> simp [h]

theorem queueLess_asymm (a b : queue) (h : queueLess a b = true) : queueLess b a = false := by
  rw [queueLess_eq] at h ⊢
  by_cases hab : a.priority = b.priority
  · simp only [hab, if_true] at h ⊢
    exact strLess_asymm _ _ h
  · have hba : ¬ b.priority = a.priority := fun e => hab e.symm
    simp only [hab, hba, if_false, decide_eq_true_eq, decide_eq_false_iff_not] at h ⊢
    omega

theorem queueLess_negtrans (a b c : queue) (h1 : queueLess a b = false)
    (h2 : queueLess b c = false) : queueLess a c = false := by
  rw [queueLess_eq] at h1 h2 ⊢
  by_cases hab : a.priority = b.priority
  · by_cases hbc : b.priority = c.priority
    · have hac : a.priority = c.priority := hab.trans hbc
      simp only [hab, hbc, hac, if_true] at h1 h2 ⊢
      exact strLess_negtrans _ _ _ h1 h2
    · have hac : ¬ a.priority = c.priority := fun e => hbc (hab.symm.trans e)
      simp only [hbc, hac, if_false, decide_eq_false_iff_not] at h2 ⊢
      omega
  · by_cases hbc : b.priority = c.priority
    · have hac : ¬ a.priority = c.priority := fun e => hab (e.trans hbc.symm)
      simp only [hab, hac, if_false, decide_eq_false_iff_not] at h1 ⊢
      omega
    · simp only [hab, hbc, if_false, decide_eq_false_iff_not] at h1 h2
      have hac : ¬ a.priority = c.priority := by omega
      simp only [hac, if_false, decide_eq_false_iff_not]
      omega

theorem queueLess_tie (a b : queue) (h1 : queueLess a b = false) (h2 : queueLess b a = false) :
    a = b := by
  rw [queueLess_eq] at h1 h2
  by_cases hab : a.priority = b.priority
  · simp only [hab, if_true] at h1 h2
    cases a; cases b
    simp only [queue.mk.injEq]
    exact ⟨strLess_total _ _ h1 h2, hab⟩
  · have hba : ¬ b.priority = a.priority := fun e => hab e.symm
    simp only [hab, hba, if_false, decide_eq_false_iff_not] at h1 h2
    omega

theorem digitByte_val (d : Nat) : (digitByte d).val = 48 + d % 10 := by
  simp only [digitByte, Fin.ofNat, Fin.val_mk]
  omega

theorem decimalValue_digitLoop (fuel v : Nat) (acc : GoString) (h : v ≤ fuel) :
    (digitLoop fuel v acc).foldl (fun n b => 10 * n + (b.val - 48)) 0 =
      acc.foldl (fun n b => 10 * n + (b.val - 48)) v := by
  induction fuel generalizing v acc with
  | zero =>
    have : v = 0 := by omega
    simp [digitLoop, this]
  | succ n ih =>
    simp only [digitLoop]
    split_ifs with hv
    · rw [hv]
    · rw [ih (v / 10) _ (by omega)]
      simp only [List.foldl_cons, digitByte_val]
      congr 1
      omega

theorem decimalValue_fmtNat (v : Nat) : decimalValue (fmtNat v) = v := by
  simp only [decimalValue, fmtNat, fmtNatInto]
  split_ifs with hv
  · rw [hv]; rfl
  · rw [decimalValue_digitLoop v v [] (le_refl v)]
    rfl

theorem sprintf_queue (n : GoString) (p : Int) :
    sprintf (str "%s:%d") [Arg.str n, Arg.int p] = n ++ str ":" ++ fmtInt p := by
  have h : sprintf (str "%s:%d") [Arg.str n, Arg.int p] = n ++ (58 :: (fmtInt p ++ [])) := rfl
  rw [h]
  have h2 : str ":" = [58] := rfl
  simp [h2]

theorem sprintf_workers (a c : Int) :
    sprintf (str "%d/%d") [Arg.int a, Arg.int c] = fmtInt a ++ str "/" ++ fmtInt c := by
  have h : sprintf (str "%d/%d") [Arg.int a, Arg.int c] = fmtInt a ++ (47 :: (fmtInt c ++ [])) := rfl
  rw [h]
  have h2 : str "/" = [47] := rfl
  simp [h2]

theorem sprintf_ago (d : Int) :
    sprintf (str "%v ago") [Arg.dur d] = durationString d ++ str " ago" := by
  have h : sprintf (str "%v ago") [Arg.dur d] = durationString d ++ str " ago" := rfl
  exact h

theorem formatQueuesLoop_eq (qs : List queue) (b : GoString) :
    formatQueuesLoop qs qs.length b =
      b ++ (str " ").intercalate (qs.map (fun q => q.name ++ str ":" ++ fmtInt q.priority)) := by
  induction qs generalizing b with
  | nil => simp [formatQueuesLoop, List.intercalate]
  | cons q qs ih =>
    simp only [formatQueuesLoop, sprintf_queue, List.length_cons, Nat.cast_add, Nat.cast_one,
      add_sub_cancel_right]
    rw [ih]
    cases qs with
    | nil => simp [List.intercalate]
    | cons q' qs' =>
      have hpos : (0 : Int) < ((q' :: qs').length : Int) := by
        simp only [List.length_cons, Nat.cast_add, Nat.cast_one]; omega
      simp [hpos, List.intercalate, List.intersperse]

/-! ## The sorting step of `servers` -/

theorem servers_sorted_order (long : LongSort) (hlib : SortContract long)
    (s : List ServerInfo) :
    (sortSlice long serverLess s).Chain'
      (fun x y => strLess x.Host y.Host = true ∨ (x.Host = y.Host ∧ x.PID ≤ y.PID)) := by
  have h := sortSlice_sorted serverLess long hlib serverLess_asymm serverLess_negtrans s
  exact (h.imp (fun {x y} hxy => serverLess_ordered x y hxy)).chain'

/-- C1: for every snapshot, the sorting step of `servers` returns a rearrangement of
the same records in which every adjacent pair `(x, y)` has `x.Host < y.Host` in
byte order, or `x.Host = y.Host` and `x.PID ≤ y.PID`; this holds for every sorting
routine that meets the contract of `sort.Slice`. -/
theorem servers_sort_sorted_perm (long : LongSort) (hlib : SortContract long)
    (s : List ServerInfo) :
    (sortSlice long serverLess s).Perm s ∧
    (sortSlice long serverLess s).Chain'
      (fun x y => strLess x.Host y.Host = true ∨ (x.Host = y.Host ∧ x.PID ≤ y.PID)) :=
  ⟨sortSlice_perm serverLess long hlib s, servers_sorted_order long hlib s⟩

/-- C1, witness: the snapshot of the servers on `b` and `a`. -/
theorem servers_sort_sorted_perm_witness :
    SortContract insertionLong ∧
    (sortSlice insertionLong serverLess [serverOnB, serverOnA]).Perm [serverOnB, serverOnA] ∧
    (sortSlice insertionLong serverLess [serverOnB, serverOnA]).Chain'
      (fun x y => strLess x.Host y.Host = true ∨ (x.Host = y.Host ∧ x.PID ≤ y.PID)) :=
  ⟨insertionLong_contract,
    servers_sort_sorted_perm insertionLong insertionLong_contract [serverOnB, serverOnA]⟩

/-- C9, as stated, does not hold of every routine that `sort.Slice` may run: the
library does not promise an order for tied records, and with a routine that meets
its contract the second sort of this snapshot of thirteen records, two of them with
the same host and pid, differs from the first. -/
theorem servers_sort_idempotent_counterexample :
    SortContract tieReversingLong ∧
    sortSlice tieReversingLong serverLess (sortSlice tieReversingLong serverLess tiedSnapshot) ≠
      sortSlice tieReversingLong serverLess tiedSnapshot :=
  ⟨tieReversingLong_contract, by decide⟩

/-- C9, amended: for every snapshot in which records with the same host and pid
are equal, sorting the sorted result again returns it unchanged, whatever routine
meeting the contract of `sort.Slice` is run. -/
theorem servers_sort_idempotent (long : LongSort) (hlib : SortContract long)
    (s : List ServerInfo)
    (hkey : ∀ x ∈ s, ∀ y ∈ s, x.Host = y.Host → x.PID = y.PID → x = y) :
    sortSlice long serverLess (sortSlice long serverLess s) = sortSlice long serverLess s := by
  have hs := sortSlice_perm serverLess long hlib s
  have hss := sortSlice_perm serverLess long hlib (sortSlice long serverLess s)
  refine sorted_perm_unique serverLess _ _ hss
    (sortSlice_sorted serverLess long hlib serverLess_asymm serverLess_negtrans _)
    (sortSlice_sorted serverLess long hlib serverLess_asymm serverLess_negtrans s) ?_
  intro a ha b hb h1 h2
  have hk := serverLess_tie a b h1 h2
  exact hkey a (hs.mem_iff.mp (hss.mem_iff.mp ha)) b (hs.mem_iff.mp (hss.mem_iff.mp hb))
    hk.1 hk.2

/-- C9, witness: the snapshot of the servers on `b` and `a`. -/
theorem servers_sort_idempotent_witness :
    SortContract insertionLong ∧
    (∀ x ∈ [serverOnB, serverOnA], ∀ y ∈ [serverOnB, serverOnA],
      x.Host = y.Host → x.PID = y.PID → x = y) ∧
    sortSlice insertionLong serverLess (sortSlice insertionLong serverLess [serverOnB, serverOnA])
      = sortSlice insertionLong serverLess [serverOnB, serverOnA] :=
  ⟨insertionLong_contract, by decide,
    servers_sort_idempotent insertionLong insertionLong_contract [serverOnB, serverOnA]
      (by decide)⟩

/-- C4, as stated, fails: two records with the same host and pid that differ in
another field keep their fetch order (a slice of two elements is sorted by the
insertion sort, whatever the routine for long slices), so the two fetch orders of
this snapshot are sorted differently. -/
theorem servers_sort_fetch_order_counterexample :
    [serverOnA, serverOnAQuiet].Perm [serverOnAQuiet, serverOnA] ∧
    sortSlice insertionLong serverLess [serverOnA, serverOnAQuiet] ≠
      sortSlice insertionLong serverLess [serverOnAQuiet, serverOnA] := by
  refine ⟨List.Perm.swap _ _ _, ?_⟩
  decide

/-- C4, amended: for every snapshot in which records with the same host and pid
are equal, and every reordering of it, the sorting step returns the same sequence;
and for two servers on hosts `"b"` and `"a"` with the same pid the record of `"a"`
comes first for both fetch orders. -/
theorem servers_sort_fetch_order_independent (long : LongSort) (hlib : SortContract long)
    (s t : List ServerInfo) (hp : s.Perm t)
    (hkey : ∀ x ∈ s, ∀ y ∈ s, x.Host = y.Host → x.PID = y.PID → x = y) :
    sortSlice long serverLess s = sortSlice long serverLess t ∧
    ∀ ra rb : ServerInfo, ra.Host = str "a" → rb.Host = str "b" → ra.PID = rb.PID →
      sortSlice long serverLess [rb, ra] = [ra, rb] ∧
      sortSlice long serverLess [ra, rb] = [ra, rb] := by
  constructor
  · have hs := sortSlice_perm serverLess long hlib s
    have ht := sortSlice_perm serverLess long hlib t
    refine sorted_perm_unique serverLess _ _ (hs.trans (hp.trans ht.symm))
      (sortSlice_sorted serverLess long hlib serverLess_asymm serverLess_negtrans s)
      (sortSlice_sorted serverLess long hlib serverLess_asymm serverLess_negtrans t) ?_
    intro a ha b hb h1 h2
    have hk := serverLess_tie a b h1 h2
    exact hkey a (hs.mem_iff.mp ha) b (hs.mem_iff.mp hb) hk.1 hk.2
  · intro ra rb ha hb _
    have hne : ra.Host ≠ rb.Host := by rw [ha, hb]; decide
    have hne' : rb.Host ≠ ra.Host := fun e => hne e.symm
    have hlt : strLess ra.Host rb.Host = true := by rw [ha, hb]; decide
    have hgt : strLess rb.Host ra.Host = false := strLess_asymm _ _ hlt
    have h1 : serverLess ra rb = true := by simp [serverLess, hne, hlt]
    have h2 : serverLess rb ra = false := by simp [serverLess, hne', hgt]
    rw [sortSlice_short serverLess long [rb, ra] (by simp),
      sortSlice_short serverLess long [ra, rb] (by simp)]
    simp [insertionSortFunc, insertionSortLoop, sinkLeft, h1, h2]

/-- C4, witness: the two fetch orders of the servers on hosts `"b"` and `"a"`. -/
theorem servers_sort_fetch_order_independent_witness :
    SortContract insertionLong ∧
    [serverOnB, serverOnA].Perm [serverOnA, serverOnB] ∧
    (∀ x ∈ [serverOnB, serverOnA], ∀ y ∈ [serverOnB, serverOnA],
      x.Host = y.Host → x.PID = y.PID → x = y) ∧
    sortSlice insertionLong serverLess [serverOnB, serverOnA] =
      sortSlice insertionLong serverLess [serverOnA, serverOnB] :=
  ⟨insertionLong_contract, List.Perm.swap _ _ _, by decide,
    (servers_sort_fetch_order_independent insertionLong insertionLong_contract
      [serverOnB, serverOnA] [serverOnA, serverOnB] (List.Perm.swap _ _ _) (by decide)).1⟩

/-! ## `formatQueues` -/

theorem queueLess_iff (x y : queue) :
    queueLess x y = true ↔
      x.priority > y.priority ∨ (x.priority = y.priority ∧ strLess x.name y.name = true) := by
  rw [queueLess_eq]
  by_cases h : x.priority = y.priority
  · simp [h]
  · simp only [h, if_false, decide_eq_true_eq, false_and, or_false]

theorem formatQueues_eq (long : LongSort) (qmap : List (GoString × Int)) :
    formatQueues long qmap =
      (str " ").intercalate
        ((sortSlice long queueLess (qmap.map (fun e => queue.mk e.1 e.2))).map
          (fun q => q.name ++ str ":" ++ fmtInt q.priority)) := by
  simp only [formatQueues]
  rw [formatQueuesLoop_eq]
  simp

theorem sortSlice_queue_perm_eq (long : LongSort) (hlib : SortContract long)
    (q₁ q₂ : List queue) (hp : q₁.Perm q₂) :
    sortSlice long queueLess q₁ = sortSlice long queueLess q₂ := by
  have h1 := sortSlice_perm queueLess long hlib q₁
  have h2 := sortSlice_perm queueLess long hlib q₂
  exact sorted_perm_unique queueLess _ _ (h1.trans (hp.trans h2.symm))
    (sortSlice_sorted queueLess long hlib queueLess_asymm queueLess_negtrans q₁)
    (sortSlice_sorted queueLess long hlib queueLess_asymm queueLess_negtrans q₂)
    (fun a _ b _ r1 r2 => queueLess_tie a b r1 r2)

theorem formatQueues_perm (long : LongSort) (hlib : SortContract long)
    (m₁ m₂ : List (GoString × Int)) (hp : m₁.Perm m₂) :
    formatQueues long m₁ = formatQueues long m₂ := by
  rw [formatQueues_eq, formatQueues_eq,
    sortSlice_queue_perm_eq long hlib _ _ (hp.map (fun e => queue.mk e.1 e.2))]

theorem formatQueues_example (long : LongSort) :
    formatQueues long exampleQueues = str "critical:6 default:1 low:1" := by
  rw [formatQueues_eq, sortSlice_short queueLess long _ (by decide)]
  decide

/-- C2: for every queue map, `formatQueues` returns the strings `name:priority`
(priority in decimal), one per entry, ordered by priority descending and among equal
priorities by name ascending, joined by single spaces; the empty map gives the empty
string and the example map gives `critical:6 default:1 low:1` whatever the
enumeration order.  This holds for every sorting routine that meets the contract of
`sort.Slice`. -/
theorem formatQueues_sorted_joined (long : LongSort) (hlib : SortContract long)
    (qmap : List (GoString × Int)) (hmap : (qmap.map Prod.fst).Nodup) :
    (∃ qs : List queue,
      qs.Perm (qmap.map (fun e => queue.mk e.1 e.2)) ∧
      qs.Pairwise (fun x y =>
        x.priority > y.priority ∨ (x.priority = y.priority ∧ strLess x.name y.name = true)) ∧
      formatQueues long qmap =
        (str " ").intercalate (qs.map (fun q => q.name ++ str ":" ++ fmtInt q.priority))) ∧
    formatQueues long [] = str "" ∧
    ∀ m : List (GoString × Int), m.Perm exampleQueues →
      formatQueues long m = str "critical:6 default:1 low:1" := by
  refine ⟨⟨sortSlice long queueLess (qmap.map (fun e => queue.mk e.1 e.2)),
    sortSlice_perm queueLess long hlib _, ?_, formatQueues_eq long qmap⟩, ?_, ?_⟩
  · have hs := sortSlice_sorted queueLess long hlib queueLess_asymm queueLess_negtrans
      (qmap.map (fun e => queue.mk e.1 e.2))
    have hnd : (qmap.map (fun e => queue.mk e.1 e.2)).Nodup := by
      have : (qmap.map (fun e => queue.mk e.1 e.2)).map queue.name = qmap.map Prod.fst := by
        simp [List.map_map, Function.comp_def]
      exact List.Nodup.of_map queue.name (this ▸ hmap)
    have hnd' : (sortSlice long queueLess (qmap.map (fun e => queue.mk e.1 e.2))).Nodup :=
      (sortSlice_perm queueLess long hlib _).nodup_iff.mpr hnd
    refine (hs.and hnd').imp ?_
    intro x y hxy
    rw [← queueLess_iff]
    by_contra hn
    exact hxy.2 (queueLess_tie x y (by simpa using hn) hxy.1)
  · rw [formatQueues_eq, sortSlice_short queueLess long _ (by decide)]
    decide
  · intro m hm
    rw [formatQueues_perm long hlib m exampleQueues hm]
    exact formatQueues_example long

/-- C2, witness: the example map. -/
theorem formatQueues_sorted_joined_witness :
    SortContract insertionLong ∧ (exampleQueues.map Prod.fst).Nodup ∧
    formatQueues insertionLong exampleQueues = str "critical:6 default:1 low:1" :=
  ⟨insertionLong_contract, by decide,
    (formatQueues_sorted_joined insertionLong insertionLong_contract exampleQueues
      (by decide)).2.2 exampleQueues (List.Perm.refl _)⟩

/-- C10: `formatQueues` does not depend on the order in which the entries of the
map are enumerated, and the comparator never ties on two distinct entries; this
holds for every sorting routine that meets the contract of `sort.Slice`. -/
theorem formatQueues_enumeration_independent (long : LongSort) (hlib : SortContract long)
    (m₁ m₂ : List (GoString × Int))
    (hp : m₁.Perm m₂) (hmap : (m₁.map Prod.fst).Nodup) :
    formatQueues long m₁ = formatQueues long m₂ ∧
    ∀ x y : queue, x ≠ y → queueLess x y = true ∨ queueLess y x = true := by
  have _ := hmap
  refine ⟨formatQueues_perm long hlib m₁ m₂ hp, ?_⟩
  intro x y hne
  by_contra hn
  rw [not_or] at hn
  exact hne (queueLess_tie x y (by simpa using hn.1) (by simpa using hn.2))

/-- C10, witness: the example map and its reversed enumeration. -/
theorem formatQueues_enumeration_independent_witness :
    SortContract insertionLong ∧
    exampleQueues.Perm exampleQueues.reverse ∧ (exampleQueues.map Prod.fst).Nodup ∧
    formatQueues insertionLong exampleQueues = formatQueues insertionLong exampleQueues.reverse :=
  ⟨insertionLong_contract, (List.reverse_perm _).symm, by decide,
    (formatQueues_enumeration_independent insertionLong insertionLong_contract exampleQueues
      exampleQueues.reverse (List.reverse_perm _).symm (by decide)).1⟩

/-! ## `printTable` -/

theorem stringsRepeat_succ (s : GoString) (n : Nat) :
    stringsRepeat s (n + 1) = s ++ stringsRepeat s n := by
  simp [stringsRepeat, List.replicate_succ]

theorem stringsRepeat_dash (n : Nat) : stringsRepeat (str "-") n = List.replicate n dash := by
  induction n with
  | zero => rfl
  | succ n ih =>
    rw [stringsRepeat_succ, ih, List.replicate_succ]
    rfl

theorem sprintf_cons_of_ne (c : Fin 256) (rest : GoString) (args : List Arg) (h : c ≠ percent) :
    sprintf (c :: rest) args = c :: sprintf rest args := by
  cases rest <;> simp [sprintf, h]

theorem sprintf_verb (verb : Fin 256) (rest : GoString) (a : Arg) (as : List Arg)
    (h : verb ≠ percent) :
    sprintf (percent :: verb :: rest) (a :: as) = a.render verb ++ sprintf rest as := by
  simp [sprintf, h]

theorem sprintf_row (args : List Arg) :
    sprintf (stringsRepeat (str "%v\t") args.length ++ str "\n") args =
      tabLine (args.map Arg.value) := by
  induction args with
  | nil => rfl
  | cons a as ih =>
    rw [List.length_cons, stringsRepeat_succ]
    have h : sprintf (str "%v\t" ++ stringsRepeat (str "%v\t") as.length ++ str "\n") (a :: as) =
        a.value ++ tab :: sprintf (stringsRepeat (str "%v\t") as.length ++ str "\n") as := by
      have e : str "%v\t" = [percent, 118, tab] := rfl
      rw [e]
      simp only [List.cons_append, List.nil_append]
      rw [sprintf_verb _ _ _ _ (by decide), sprintf_cons_of_ne _ _ _ (by decide)]
      simp [Arg.render]
    rw [h, ih]
    simp [tabLine]

theorem sprintf_row_str (cells : List GoString) :
    sprintf (stringsRepeat (str "%v\t") cells.length ++ str "\n") (cells.map Arg.str) =
      tabLine cells := by
  have h := sprintf_row (cells.map Arg.str)
  simp only [List.length_map, List.map_map] at h
  rw [h]
  congr 1
  exact List.map_id _

theorem printTable_eq (columns : List GoString) (emit : GoString → List GoString) :
    printTable columns emit =
      [tabLine columns, tabLine (columns.map (fun name => List.replicate name.length dash))] ++
        emit (stringsRepeat (str "%v\t") columns.length ++ str "\n") := by
  simp only [printTable]
  have h1 := sprintf_row_str columns
  have h2 := sprintf_row_str (columns.map (fun name => stringsRepeat (str "-") name.length))
  simp only [List.length_map, List.map_map, Function.comp_def] at h2
  rw [h1, h2]
  simp [Function.comp_def, stringsRepeat_dash]

/-- C5: for every list of column headers and every row emitter, `printTable`
writes the header line (the column names), then the separator line (for every
column a run of `-` as long as the header), then what the row emitter writes with
the same template; for the columns `A`, `BB` and the single row `x`, `yy` it writes
exactly three lines, each with two tab-terminated fields. -/
theorem printTable_layout (columns : List GoString) (emit : GoString → List GoString) :
    printTable columns emit =
      [tabLine columns, tabLine (columns.map (fun name => List.replicate name.length dash))] ++
        emit (stringsRepeat (str "%v\t") columns.length ++ str "\n") ∧
    printTable [str "A", str "BB"]
        (fun tmpl => [sprintf tmpl [Arg.str (str "x"), Arg.str (str "yy")]]) =
      [str "A\tBB\t\n", str "-\t--\t\n", str "x\tyy\t\n"] ∧
    ([str "A\tBB\t\n", str "-\t--\t\n", str "x\tyy\t\n"].map
      (fun line => (line.count tab, line.count nl))) = [(2, 1), (2, 1), (2, 1)] :=
  ⟨printTable_eq columns emit, by decide, by decide⟩

/-! ## The `servers` command -/

theorem printRowsLoop_eq (long : LongSort) (clock : Nat → Int) (k : Nat) (s : List ServerInfo) :
    printRowsLoop long clock (stringsRepeat (str "%v\t") cols.length ++ str "\n") k s =
      List.zipWith (fun i r => tabLine [r.Host, fmtInt r.PID, r.Status,
        fmtInt r.ActiveWorkerCount ++ str "/" ++ fmtInt r.Concurrency,
        formatQueues long r.Queues, timeAgo (clock i) r.Started]) (List.range' k s.length) s := by
  induction s generalizing k with
  | nil => simp [printRowsLoop]
  | cons r rest ih =>
    have h := sprintf_row [Arg.str r.Host, Arg.int r.PID, Arg.str r.Status,
       Arg.str (sprintf (str "%d/%d") [Arg.int r.ActiveWorkerCount, Arg.int r.Concurrency]),
       Arg.str (formatQueues long r.Queues), Arg.str (timeAgo (clock k) r.Started)]
    have hl : cols.length = 6 := rfl
    simp only [List.length_cons, List.length_nil] at h
    rw [hl] at ih ⊢
    simp only [printRowsLoop, List.length_cons, List.range'_succ, List.zipWith_cons_cons]
    rw [h, ih (k + 1)]
    simp [Arg.value, sprintf_workers]

theorem servers_table_eq (long : LongSort) (s : List ServerInfo) (clock : Nat → Int)
    (hs : s ≠ []) :
    servers long (.ok s) clock =
      ⟨[], [tabLine cols, tabLine (cols.map (fun name => List.replicate name.length dash))] ++
        List.zipWith (fun i r => tabLine [r.Host, fmtInt r.PID, r.Status,
          fmtInt r.ActiveWorkerCount ++ str "/" ++ fmtInt r.Concurrency,
          formatQueues long r.Queues, timeAgo (clock i) r.Started])
          (List.range (sortSlice long serverLess s).length) (sortSlice long serverLess s), 0⟩ := by
  have hlen : ¬ s.length = 0 := fun h => hs (List.length_eq_zero.mp h)
  simp only [servers, hlen, if_false]
  rw [printTable_eq, printRows, printRowsLoop_eq, List.range_eq_range']

/-- C6: for every non-empty snapshot the table of `servers` has the header cells
Host, PID, State, Active Workers, Queues, Started, then one data row per record,
the records in the order in which `sort.Slice` leaves them, which is ascending by
(host, pid); the row of a record has the cells host, pid, status,
`active/concurrency`, the `formatQueues` string and the `timeAgo` string of its
start time at the instant at which the row is written. -/
theorem servers_table_rows (long : LongSort) (hlib : SortContract long)
    (s : List ServerInfo) (clock : Nat → Int) (hs : s ≠ []) :
    (sortSlice long serverLess s).Perm s ∧
    (sortSlice long serverLess s).Chain'
      (fun x y => strLess x.Host y.Host = true ∨ (x.Host = y.Host ∧ x.PID ≤ y.PID)) ∧
    (servers long (.ok s) clock).stdout = [] ∧
    (servers long (.ok s) clock).table =
      [tabLine [str "Host", str "PID", str "State", str "Active Workers", str "Queues",
          str "Started"],
        tabLine [str "----", str "---", str "-----", str "--------------", str "------",
          str "-------"]] ++
      List.zipWith (fun i r => tabLine [r.Host, fmtInt r.PID, r.Status,
        fmtInt r.ActiveWorkerCount ++ str "/" ++ fmtInt r.Concurrency,
        formatQueues long r.Queues, timeAgo (clock i) r.Started])
        (List.range (sortSlice long serverLess s).length) (sortSlice long serverLess s) := by
  refine ⟨sortSlice_perm serverLess long hlib s, servers_sorted_order long hlib s, ?_⟩
  rw [servers_table_eq long s clock hs]
  refine ⟨rfl, ?_⟩
  have h1 : tabLine cols = tabLine [str "Host", str "PID", str "State", str "Active Workers",
      str "Queues", str "Started"] := rfl
  have h2 : tabLine (cols.map (fun name => List.replicate name.length dash)) =
      tabLine [str "----", str "---", str "-----", str "--------------", str "------",
          str "-------"] := by decide
  simp only [h1, h2]

/-- C6, witness: the snapshot of the servers on `b` and `a`, the first row written
five and the second six seconds after their start. -/
theorem servers_table_rows_witness :
    SortContract insertionLong ∧ [serverOnB, serverOnA] ≠ [] ∧
    (servers insertionLong (.ok [serverOnB, serverOnA]) exampleClock).table =
      [str "Host\tPID\tState\tActive Workers\tQueues\tStarted\t\n",
       str "----\t---\t-----\t--------------\t------\t-------\t\n",
       str "a\t4242\trunning\t1/10\tdefault:1\t5s ago\t\n",
       str "b\t4242\trunning\t2/10\tdefault:1\t6s ago\t\n"] :=
  ⟨insertionLong_contract, by decide,
    (servers_table_rows insertionLong insertionLong_contract [serverOnB, serverOnA] exampleClock
      (by decide)).2.2.2.trans (by decide)⟩

/-- C8: on an empty snapshot the command prints the single line
`No running servers` and nothing else: no write reaches a table. -/
theorem servers_empty_snapshot (long : LongSort) (clock : Nat → Int) :
    servers long (.ok []) clock = ⟨str "No running servers\n", [], 0⟩ := by
  rfl

/-! ## Bytes of the rendered cells -/

theorem noBreak_nil : noBreak [] := by
  intro b hb; cases hb

theorem noBreak_append {a b : GoString} : noBreak (a ++ b) ↔ noBreak a ∧ noBreak b := by
  unfold noBreak
  constructor
  · intro h
    exact ⟨fun x hx => h x (List.mem_append_left _ hx), fun x hx => h x (List.mem_append_right _ hx)⟩
  · intro h x hx
    rcases List.mem_append.mp hx with hx | hx
    · exact h.1 x hx
    · exact h.2 x hx

theorem noBreak_cons {x : Fin 256} {a : GoString} :
    noBreak (x :: a) ↔ (x ≠ tab ∧ x ≠ nl) ∧ noBreak a := by
  unfold noBreak
  simp only [List.mem_cons, forall_eq_or_imp]

theorem digitByte_ne (d : Nat) : digitByte d ≠ tab ∧ digitByte d ≠ nl := by
  have h := digitByte_val d
  constructor <;> intro e <;> · have := congrArg Fin.val e; rw [h] at this; simp [tab, nl] at this; omega

theorem digitLoop_noBreak (fuel v : Nat) (acc : GoString) (h : noBreak acc) :
    noBreak (digitLoop fuel v acc) := by
  induction fuel generalizing v acc with
  | zero => simpa [digitLoop] using h
  | succ n ih =>
    simp only [digitLoop]
    split_ifs
    · exact h
    · exact ih _ _ (noBreak_cons.mpr ⟨digitByte_ne v, h⟩)

theorem fmtNatInto_noBreak (v : Nat) (acc : GoString) (h : noBreak acc) :
    noBreak (fmtNatInto v acc) := by
  simp only [fmtNatInto]
  split_ifs
  · exact noBreak_cons.mpr ⟨digitByte_ne 0, h⟩
  · exact digitLoop_noBreak _ _ _ h

theorem fmtInt_noBreak (i : Int) : noBreak (fmtInt i) := by
  simp only [fmtInt, fmtNat]
  split_ifs
  · exact noBreak_append.mpr ⟨by decide, fmtNatInto_noBreak _ _ noBreak_nil⟩
  · exact fmtNatInto_noBreak _ _ noBreak_nil

theorem fmtFracLoop_noBreak (prec v : Nat) (print : Bool) (buf : GoString) (h : noBreak buf) :
    noBreak (fmtFracLoop prec v print buf).1 := by
  induction prec generalizing v print buf with
  | zero => simpa [fmtFracLoop] using h
  | succ n ih =>
    simp only [fmtFracLoop]
    apply ih
    split_ifs
    · exact noBreak_cons.mpr ⟨digitByte_ne _, h⟩
    · exact h

theorem fmtFrac_noBreak (buf : GoString) (v prec : Nat) (h : noBreak buf) :
    noBreak (fmtFrac buf v prec).1 := by
  simp only [fmtFrac]
  split_ifs
  · exact noBreak_append.mpr ⟨by decide, fmtFracLoop_noBreak _ _ _ _ h⟩
  · exact fmtFracLoop_noBreak _ _ _ _ h

theorem durationString_noBreak (d : Int) : noBreak (durationString d) := by
  have hs : noBreak (str "s") := by decide
  have hm : noBreak (str "m") := by decide
  have hh : noBreak (str "h") := by decide
  have hneg : noBreak (str "-") := by decide
  have hns : noBreak (str "ns") := by decide
  have hus : noBreak (([0xC2, 0xB5] : GoString) ++ str "s") := by decide
  have hms : noBreak (str "ms") := by decide
  have h0 : noBreak (str "0s") := by decide
  simp only [durationString]
  split_ifs <;>
    first
      | exact h0
      | (repeat' first
          | assumption
          | apply fmtNatInto_noBreak
          | apply fmtFrac_noBreak
          | (apply noBreak_append.mpr; constructor))

theorem timeAgo_noBreak (now since : Int) : noBreak (timeAgo now since) := by
  simp only [timeAgo, sprintf_ago]
  exact noBreak_append.mpr ⟨durationString_noBreak _, by decide⟩

theorem intercalate_noBreak (sep : GoString) (parts : List GoString) (hsep : noBreak sep)
    (h : ∀ p ∈ parts, noBreak p) : noBreak (sep.intercalate parts) := by
  induction parts with
  | nil => simpa [List.intercalate] using noBreak_nil
  | cons p ps ih =>
    cases ps with
    | nil => simpa [List.intercalate] using h p (by simp)
    | cons p' ps' =>
      have ih' := ih (fun q hq => h q (List.mem_cons_of_mem _ hq))
      have e : sep.intercalate (p :: p' :: ps') = p ++ (sep ++ sep.intercalate (p' :: ps')) := by
        simp [List.intercalate, List.intersperse]
      rw [e]
      exact noBreak_append.mpr ⟨h p (by simp), noBreak_append.mpr ⟨hsep, ih'⟩⟩

theorem formatQueues_noBreak (long : LongSort) (hlib : SortContract long)
    (qmap : List (GoString × Int)) (h : ∀ e ∈ qmap, noBreak e.1) :
    noBreak (formatQueues long qmap) := by
  rw [formatQueues_eq]
  apply intercalate_noBreak _ _ (by decide)
  intro p hp
  rcases List.mem_map.mp hp with ⟨q, hq, rfl⟩
  have hq' := (sortSlice_perm queueLess long hlib _).mem_iff.mp hq
  rcases List.mem_map.mp hq' with ⟨e, he, rfl⟩
  exact noBreak_append.mpr ⟨noBreak_append.mpr ⟨h e he, by decide⟩, fmtInt_noBreak _⟩

theorem count_of_noBreak (c : GoString) (h : noBreak c) : c.count tab = 0 ∧ c.count nl = 0 := by
  constructor
  · exact List.count_eq_zero.mpr (fun hm => (h tab hm).1 rfl)
  · exact List.count_eq_zero.mpr (fun hm => (h nl hm).2 rfl)

theorem tabLine_cons (c : GoString) (cells : List GoString) :
    tabLine (c :: cells) = c ++ tab :: tabLine cells := by
  simp [tabLine]

theorem tabLine_counts (cells : List GoString) (h : ∀ c ∈ cells, noBreak c) :
    (tabLine cells).count tab = cells.length ∧ (tabLine cells).count nl = 1 ∧
    (tabLine cells).getLast? = some nl := by
  refine ⟨?_, ?_, by simp [tabLine]⟩
  · induction cells with
    | nil => decide
    | cons c cs ih =>
      rw [tabLine_cons, List.count_append, List.count_cons_self,
        ih (fun x hx => h x (List.mem_cons_of_mem _ hx)),
        (count_of_noBreak c (h c (by simp))).1]
      simp
  · induction cells with
    | nil => decide
    | cons c cs ih =>
      have hne : (tab == nl) = false := by decide
      rw [tabLine_cons, List.count_append, List.count_cons, hne,
        ih (fun x hx => h x (List.mem_cons_of_mem _ hx)),
        (count_of_noBreak c (h c (by simp))).2]
      simp

theorem mem_zipWith_elim {α β γ : Type} (f : α → β → γ) (as : List α) (bs : List β) (c : γ)
    (h : c ∈ List.zipWith f as bs) : ∃ a, ∃ b ∈ bs, c = f a b := by
  induction as generalizing bs with
  | nil => simp at h
  | cons a as ih =>
    cases bs with
    | nil => simp at h
    | cons b bs =>
      simp only [List.zipWith_cons_cons, List.mem_cons] at h
      rcases h with h | h
      · exact ⟨a, b, by simp, h⟩
      · rcases ih bs h with ⟨a', b', hb', e⟩
        exact ⟨a', b', List.mem_cons_of_mem _ hb', e⟩

/-- C3, as stated, fails: a queue name with a tab gives a data row with seven
tabs. -/
theorem servers_table_columns_counterexample :
    [serverTabQueue] ≠ [] ∧
    ((servers insertionLong (.ok [serverTabQueue]) exampleClock).table.map
      (fun line => line.count tab)) = [6, 6, 7] := by
  decide

/-- C3, amended: for every non-empty snapshot whose host names, status strings and
queue names hold neither a tab nor a line break, every line that `servers` writes
through `printTable` has exactly `len(cols) = 6` tab-terminated cells and exactly
one line break, at its end. -/
theorem servers_table_columns (long : LongSort) (hlib : SortContract long)
    (s : List ServerInfo) (clock : Nat → Int) (hs : s ≠ [])
    (hplain : ∀ r ∈ s, noBreak r.Host ∧ noBreak r.Status ∧ ∀ e ∈ r.Queues, noBreak e.1) :
    cols.length = 6 ∧
    ∀ line ∈ (servers long (.ok s) clock).table,
      line.count tab = 6 ∧ line.count nl = 1 ∧ line.getLast? = some nl := by
  refine ⟨rfl, ?_⟩
  rw [servers_table_eq long s clock hs]
  intro line hline
  simp only [List.cons_append, List.nil_append, List.mem_cons] at hline
  rcases hline with rfl | rfl | hrow
  · decide
  · decide
  · rcases mem_zipWith_elim _ _ _ _ hrow with ⟨i, r, hr, rfl⟩
    have hr' := (sortSlice_perm serverLess long hlib s).mem_iff.mp hr
    have hp := hplain r hr'
    have hc := tabLine_counts [r.Host, fmtInt r.PID, r.Status,
        fmtInt r.ActiveWorkerCount ++ str "/" ++ fmtInt r.Concurrency,
        formatQueues long r.Queues, timeAgo (clock i) r.Started] (by
      intro c hcm
      simp only [List.mem_cons, List.mem_singleton, List.not_mem_nil, or_false] at hcm
      rcases hcm with rfl | rfl | rfl | rfl | rfl | rfl
      · exact hp.1
      · exact fmtInt_noBreak _
      · exact hp.2.1
      · exact noBreak_append.mpr ⟨noBreak_append.mpr ⟨fmtInt_noBreak _, by decide⟩,
          fmtInt_noBreak _⟩
      · exact formatQueues_noBreak long hlib _ hp.2.2
      · exact timeAgo_noBreak _ _)
    simpa using hc

/-- C3, witness: the snapshot of the servers on `b` and `a`. -/
theorem servers_table_columns_witness :
    SortContract insertionLong ∧ [serverOnB, serverOnA] ≠ [] ∧
    (∀ r ∈ [serverOnB, serverOnA],
      noBreak r.Host ∧ noBreak r.Status ∧ ∀ e ∈ r.Queues, noBreak e.1) ∧
    ∀ line ∈ (servers insertionLong (.ok [serverOnB, serverOnA]) exampleClock).table,
      line.count tab = 6 ∧ line.count nl = 1 ∧ line.getLast? = some nl :=
  ⟨insertionLong_contract, by decide, by decide,
    (servers_table_columns insertionLong insertionLong_contract [serverOnB, serverOnA]
      exampleClock (by decide) (by decide)).2⟩

/-! ## `timeAgo` -/

theorem digitLoop_append (fuel v : Nat) (acc : GoString) :
    digitLoop fuel v acc = digitLoop fuel v [] ++ acc := by
  induction fuel generalizing v acc with
  | zero => simp [digitLoop]
  | succ n ih =>
    simp only [digitLoop]
    split_ifs
    · simp
    · rw [ih _ (digitByte v :: acc), ih _ [digitByte v]]
      simp

theorem fmtNatInto_eq (v : Nat) (acc : GoString) : fmtNatInto v acc = fmtNat v ++ acc := by
  simp only [fmtNat, fmtNatInto]
  split_ifs
  · simp
  · exact digitLoop_append _ _ _

theorem fmtFracLoop_zeros (prec v : Nat) (buf : GoString) :
    fmtFracLoop prec (v * 10 ^ prec) false buf = (buf, v, false) := by
  induction prec generalizing v with
  | zero => simp [fmtFracLoop]
  | succ n ih =>
    have h1 : v * 10 ^ (n + 1) % 10 = 0 := by
      rw [pow_succ, ← Nat.mul_assoc]; exact Nat.mul_mod_left _ _
    have h2 : v * 10 ^ (n + 1) / 10 = v * 10 ^ n := by
      rw [pow_succ, ← Nat.mul_assoc]; exact Nat.mul_div_cancel _ (by decide)
    simp only [fmtFracLoop, h1, h2]
    simpa using ih v

theorem fmtFrac_seconds (buf : GoString) (n : Nat) :
    fmtFrac buf (n * 1000000000) 9 = (buf, n) := by
  have h := fmtFracLoop_zeros 9 n buf
  have e : (10 : Nat) ^ 9 = 1000000000 := by norm_num
  rw [e] at h
  simp [fmtFrac, h]

theorem toUint64_of_range (x : Int) (h0 : 0 ≤ x) (h1 : x < 18446744073709551616) :
    (toUint64 x : Int) = x := by
  have e : (2 : Int) ^ 64 = 18446744073709551616 := by norm_num
  simp only [toUint64, e]
  rw [Int.emod_eq_of_lt h0 h1, Int.toNat_of_nonneg h0]

theorem wrap64_of_range (x : Int) (h0 : -9223372036854775808 ≤ x)
    (h1 : x ≤ 9223372036854775807) : wrap64 x = x := by
  have e : (2 : Int) ^ 64 = 18446744073709551616 := by norm_num
  have e' : (2 : Int) ^ 63 = 9223372036854775808 := by norm_num
  simp only [wrap64, e, e']
  rw [Int.emod_eq_of_lt (by omega) (by omega)]
  omega

theorem durationString_seconds (n : Nat) (hn : (n : Int) * 1000000000 < 18446744073709551616) :
    durationString ((n : Int) * 1000000000) = hmsText n := by
  have hu : toUint64 ((n : Int) * 1000000000) = n * 1000000000 := by
    have h := toUint64_of_range ((n : Int) * 1000000000) (by positivity) hn
    exact_mod_cast h
  have hneg : ¬ ((n : Int) * 1000000000 < 0) := by omega
  simp only [durationString, hneg, decide_False, hu, Bool.false_eq_true, if_false]
  by_cases h0 : n = 0
  · subst h0; decide
  · have hge : ¬ n * 1000000000 < 1000000000 := by omega
    simp only [hge, if_false, fmtFrac_seconds, fmtNatInto_eq, hmsText]
    by_cases h60 : n < 60
    · have h1 : ¬ n / 60 > 0 := by omega
      have h2 : n % 60 = n := by omega
      simp [h60, h1, h2]
    · have h1 : n / 60 > 0 := by omega
      by_cases h3600 : n < 3600
      · have h2 : ¬ n / 60 / 60 > 0 := by omega
        have h3 : n / 60 % 60 = n / 60 := by omega
        simp [h60, h1, h2, h3, h3600]
      · have h2 : n / 60 / 60 > 0 := by omega
        have h3 : n / 60 / 60 = n / 3600 := by omega
        have h4 : ¬ n / 3600 = 0 := by omega
        simp [h60, h1, h3, h4, h3600]

theorem durationRound_second (d : Int) (h0 : 0 ≤ d) (h1 : d < 9223372036500000000) :
    durationRound d second = ((nearestSecond d : Nat) : Int) * 1000000000 := by
  have hm : ¬ second ≤ 0 := by decide
  have hd : ¬ d < 0 := by omega
  have hr : d.tmod second = d % 1000000000 := by
    rw [Int.tmod_eq_emod h0 (by decide)]; rfl
  simp only [durationRound, hm, hd, if_false, hr, nearestSecond]
  have hr0 : 0 ≤ d % 1000000000 := Int.emod_nonneg _ (by decide)
  have hr1 : d % 1000000000 < 1000000000 := Int.emod_lt_of_pos _ (by decide)
  have hlt : lessThanHalf (d % 1000000000) second = decide (d % 1000000000 < 500000000) := by
    have ha := toUint64_of_range (d % 1000000000) hr0 (by omega)
    have hb := toUint64_of_range second (by decide) (by decide)
    have hs : second = 1000000000 := rfl
    have hsum : (toUint64 (d % 1000000000) + toUint64 (d % 1000000000)) % 2 ^ 64 =
        toUint64 (d % 1000000000) + toUint64 (d % 1000000000) := by
      apply Nat.mod_eq_of_lt
      have e : (2 : Nat) ^ 64 = 18446744073709551616 := by norm_num
      rw [e]
      omega
    simp only [lessThanHalf, hsum]
    rw [decide_eq_decide]
    omega
  rw [hlt]
  by_cases hh : d % 1000000000 < 500000000
  · simp only [hh, decide_True, if_true]
    rw [wrap64_of_range _ (by omega) (by omega)]
    omega
  · have hw : wrap64 (d + second - d % 1000000000) = d + 1000000000 - d % 1000000000 := by
      have hs : second = 1000000000 := rfl
      rw [hs, wrap64_of_range _ (by omega) (by omega)]
    have hgt : d + 1000000000 - d % 1000000000 > d := by omega
    simp only [hh, decide_False, Bool.false_eq_true, if_false, hw, hgt, if_true]
    omega

/-- C7, as stated, fails: when more than `2^63 - 1` nanoseconds (about 292 years)
lie between the start time and now, for instance for the zero `time.Time`,
`time.Since` yields the largest duration and `timeAgo` returns
`2562047h47m16.854775807s ago`, not the elapsed whole seconds. -/
theorem timeAgo_counterexample :
    (0 : Int) ≤ 63900000000000000000 ∧
    timeAgo 63900000000000000000 0 = str "2562047h47m16.854775807s ago" ∧
    hmsText (nearestSecond (63900000000000000000 - 0)) ++ str " ago" =
      str "17750000h0m0s ago" ∧
    timeAgo 63900000000000000000 0 ≠
      hmsText (nearestSecond (63900000000000000000 - 0)) ++ str " ago" := by
  refine ⟨by decide, by decide, by decide, by decide⟩

/-- C7, amended: for every start time and current time with `started ≤ now` less
than 9223372036.5 seconds apart (the range in which the rounded elapsed time fits a
`Duration`), `timeAgo` returns the elapsed time rounded to the nearest whole second
in Go's duration notation, followed by ` ago`; five seconds give `5s ago`. -/
theorem timeAgo_elapsed (now started : Int) (h1 : started ≤ now)
    (h2 : now - started < 9223372036500000000) :
    timeAgo now started = hmsText (nearestSecond (now - started)) ++ str " ago" ∧
    (now - started = 5 * second → timeAgo now started = str "5s ago") := by
  have hsince : timeSince now started = now - started := by
    simp only [timeSince, timeSub, minDuration, maxDuration]
    norm_num
    omega
  have hmain : timeAgo now started =
      hmsText (nearestSecond (now - started)) ++ str " ago" := by
    simp only [timeAgo, sprintf_ago, hsince]
    rw [durationRound_second _ (by omega) h2, durationString_seconds]
    simp only [nearestSecond]
    rw [Int.toNat_of_nonneg (by omega)]
    omega
  refine ⟨hmain, ?_⟩
  intro h5
  rw [hmain, h5]
  decide

/-- C7, witness: a start time 11525.5 seconds before now. -/
theorem timeAgo_elapsed_witness :
    (1000 : Int) ≤ 11525500001000 ∧ (11525500001000 : Int) - 1000 < 9223372036500000000 ∧
    timeAgo 11525500001000 1000 = str "3h12m6s ago" :=
  ⟨by decide, by decide,
    (timeAgo_elapsed 11525500001000 1000 (by decide) (by decide)).1.trans (by decide)⟩

end Asynq
